import Mathlib

/-!
Verification of core properties of an LSM-tree storage engine: the
cache-line-blocked Bloom filter, the block codec, compression-type
serialization, index-block search, snapshot gating in segment point reads,
and the levelled and size-tiered compaction strategies.

Keys are opaque byte sequences, modelled as `List Nat` with the
lexicographic order of byte-slice comparison. Machine integers are
modelled as `Nat`, reduced modulo 2 ^ 64 exactly where the code uses
wrapping arithmetic.
-/

namespace LsmTree

/-- User keys are opaque byte sequences, ordered lexicographically. -/
abbrev Key := List Nat

/-- Sequence numbers (64-bit, monotonically increasing). -/
abbrev SeqNo := Nat

/-- Modulus of 64-bit wrapping arithmetic. -/
def U64 : Nat := 2 ^ 64

namespace Bloom

/-- Modelled from the spec: the bit-array module (bloom/bit_array.rs) is not
among the given sources. Per the spec the filter is backed by a plain bit
array whose bits start cleared and are only ever set; we model the array as
the finite set of bit indices that are set. -/
structure BitArray where
  bits : Finset Nat
deriving DecidableEq

/-- Reading bit i of the array. -/
def BitArray.get (b : BitArray) (i : Nat) : Bool := decide (i ∈ b.bits)

/-- Setting bit i of the array to one. -/
def BitArray.enable (b : BitArray) (i : Nat) : BitArray := ⟨insert i b.bits⟩

/-- Constant CACHE_LINE_BYTES of bloom/blocked/mod.rs. -/
def CACHE_LINE_BYTES : Nat := 64

/-- Translation of struct BlockedBloomFilter (bloom/blocked/mod.rs):
backing bit array, number k of hash functions, number of blocks. -/
structure BlockedBloomFilter where
  inner : BitArray
  k : Nat
  num_blocks : Nat
deriving DecidableEq

/-- Translation of BlockedBloomFilter::has_bit: bit idx of block block_idx,
at overall index block_idx * CACHE_LINE_BYTES + idx of the bit array. -/
def BlockedBloomFilter.has_bit (f : BlockedBloomFilter) (blockIdx idx : Nat) : Bool :=
  f.inner.get (blockIdx * CACHE_LINE_BYTES + idx)

/-- Translation of BlockedBloomFilter::enable_bit. -/
def BlockedBloomFilter.enable_bit (f : BlockedBloomFilter) (blockIdx idx : Nat) :
    BlockedBloomFilter :=
  { f with inner := f.inner.enable (blockIdx * CACHE_LINE_BYTES + idx) }

/-- The probe loop of BlockedBloomFilter::contains_hash, recursing over the
list of loop-counter values: at counter i the state is updated by the
wrapping additions h1 += h2 and h2 += i, bit h1 % CACHE_LINE_BYTES of the
chosen block is tested, and the walk stops at the first cleared bit. -/
def containsLoop (f : BlockedBloomFilter) (blockIdx : Nat) :
    Nat → Nat → List Nat → Bool
  | _, _, [] => true
  | h1, h2, i :: is =>
    let h1n := (h1 + h2) % U64
    let h2n := (h2 + i) % U64
    let idx := h1n % CACHE_LINE_BYTES
    if f.has_bit blockIdx idx then containsLoop f blockIdx h1n h2n is else false

/-- Translation of BlockedBloomFilter::contains_hash: the block is chosen
as h1 % num_blocks and the loop counter ranges over 1..k exclusive
(for i in 1..self.k), that is over List.range' 1 (k - 1). -/
def BlockedBloomFilter.contains_hash (f : BlockedBloomFilter) (h : Nat × Nat) : Bool :=
  let blockIdx := h.1 % f.num_blocks
  containsLoop f blockIdx h.1 h.2 (List.range' 1 (f.k - 1))

/-- The probe loop of BlockedBloomFilter::set_with_hash: same state update
as the contains loop, enabling the probed bit instead of testing it. -/
def setLoop (blockIdx : Nat) : BitArray → Nat → Nat → List Nat → BitArray
  | b, _, _, [] => b
  | b, h1, h2, i :: is =>
    let h1n := (h1 + h2) % U64
    let h2n := (h2 + i) % U64
    let idx := h1n % CACHE_LINE_BYTES
    setLoop blockIdx (b.enable (blockIdx * CACHE_LINE_BYTES + idx)) h1n h2n is

/-- Translation of BlockedBloomFilter::set_with_hash. -/
def BlockedBloomFilter.set_with_hash (f : BlockedBloomFilter) (h : Nat × Nat) :
    BlockedBloomFilter :=
  let blockIdx := h.1 % f.num_blocks
  { f with inner := setLoop blockIdx f.inner h.1 h.2 (List.range' 1 (f.k - 1)) }

/-- The list of absolute bit positions probed by the loops of
contains_hash and set_with_hash, starting from state (h1, h2) and the
given list of loop-counter values. -/
def probeAux (blockIdx : Nat) : Nat → Nat → List Nat → List Nat
  | _, _, [] => []
  | h1, h2, i :: is =>
    let h1n := (h1 + h2) % U64
    let h2n := (h2 + i) % U64
    (blockIdx * CACHE_LINE_BYTES + h1n % CACHE_LINE_BYTES) :: probeAux blockIdx h1n h2n is

/-- The absolute bit positions probed for composite hash (h1, h2) by a
filter with the given block count and hash-function count. -/
def probePositions (numBlocks k : Nat) (h1 h2 : Nat) : List Nat :=
  probeAux (h1 % numBlocks) h1 h2 (List.range' 1 (k - 1))

/-- Definition following the words of claim C5 and of spec section 4.6:
the key is mapped to one 64-byte (512-bit) block chosen as h1 mod
num_blocks, and each of the k probes touches bit position h1 mod 512
inside that block, with the same double-hashing state update as the code.
Written only for comparison with the translated set_with_hash. -/
def claimProbeAux (blockIdx : Nat) : Nat → Nat → List Nat → List Nat
  | _, _, [] => []
  | h1, h2, i :: is =>
    let h1n := (h1 + h2) % U64
    let h2n := (h2 + i) % U64
    (blockIdx * 512 + h1n % 512) :: claimProbeAux blockIdx h1n h2n is

/-- Claim C5 prescribes k probes (loop counters 1..k inclusive). -/
def claimProbePositions (numBlocks k : Nat) (h1 h2 : Nat) : List Nat :=
  claimProbeAux (h1 % numBlocks) h1 h2 (List.range' 1 k)

/-- Setting a hash as claim C5 describes it: the k probed bits (512-bit
blocks) are added to the bit array. -/
def claimSetWithHash (f : BlockedBloomFilter) (h : Nat × Nat) : BlockedBloomFilter :=
  { f with inner := ⟨f.inner.bits ∪ (claimProbePositions f.num_blocks f.k h.1 h.2).toFinset⟩ }

end Bloom

namespace Compression

/-- Build features: the lz4 and miniz codecs are feature-gated in the
source, so a build may lack either codec. -/
structure Features where
  lz4 : Bool
  miniz : Bool
deriving DecidableEq, Repr

/-- Translation of enum CompressionType (segment/meta/compression.rs).
The Miniz level is a byte, modelled as a natural number below 256. -/
inductive CompressionType where
  | none : CompressionType
  | lz4 : CompressionType
  | miniz (level : Nat) : CompressionType
deriving DecidableEq, Repr

/-- Translation of DeserializeError as far as the claims need it: io for a
failed read, invalidTag with the offending tag for an unknown tag byte,
and assertViolation modelling a firing Rust assert during decoding. -/
inductive DeserializeError where
  | io : DeserializeError
  | invalidTag (tag : Nat) : DeserializeError
  | assertViolation : DeserializeError
deriving DecidableEq, Repr

/-- The tag byte each compression variant serializes to. -/
def CompressionType.tagByte : CompressionType → Nat
  | .none => 0
  | .lz4 => 1
  | .miniz _ => 2

/-- Translation of impl Serializable for CompressionType: the sequence of
bytes written. The Miniz arm asserts level at most 10 before writing; a
violating level panics, modelled as Option.none. -/
def CompressionType.serialize : CompressionType → Option (List Nat)
  | .none => some [0, 0]
  | .lz4 => some [1, 0]
  | .miniz level => if level ≤ 10 then some [2, level] else Option.none

/-- Translation of impl Deserializable for CompressionType: read the tag
byte, then match it. The arms for tags 1 and 2 are compiled only when the
corresponding feature is enabled; an unmatched tag falls through to the
InvalidTag error. The arms for tags 0 and 1 assert that the pad byte is
zero, and the Miniz arm asserts the level is at most 10. -/
def CompressionType.deserialize (feat : Features) (bytes : List Nat) :
    Except DeserializeError CompressionType :=
  match bytes with
  | [] => Except.error .io
  | tag :: rest =>
    if tag = 0 then
      match rest with
      | [] => Except.error .io
      | b :: _ => if b = 0 then Except.ok CompressionType.none
                  else Except.error .assertViolation
    else if tag = 1 ∧ feat.lz4 = true then
      match rest with
      | [] => Except.error .io
      | b :: _ => if b = 0 then Except.ok CompressionType.lz4
                  else Except.error .assertViolation
    else if tag = 2 ∧ feat.miniz = true then
      match rest with
      | [] => Except.error .io
      | level :: _ => if level ≤ 10 then Except.ok (CompressionType.miniz level)
                      else Except.error .assertViolation
    else Except.error (.invalidTag tag)

/-- The tags the match of deserialize accepts in a build with the given
features: 0 always, 1 when lz4 is compiled in, 2 when miniz is. -/
def tagSupported (feat : Features) (tag : Nat) : Prop :=
  tag = 0 ∨ (tag = 1 ∧ feat.lz4 = true) ∨ (tag = 2 ∧ feat.miniz = true)

instance (feat : Features) (tag : Nat) : Decidable (tagSupported feat tag) := by
  unfold tagSupported; infer_instance

/-- A compression variant exists in a build with the given features. -/
def availableIn (feat : Features) : CompressionType → Prop
  | .none => True
  | .lz4 => feat.lz4 = true
  | .miniz _ => feat.miniz = true

end Compression

namespace BlockCodec

open Compression

/-- Translation of crate Error as far as the block claims need it. -/
inductive LsmError where
  | io : LsmError
  | decompress (c : CompressionType) : LsmError
  | checksum : LsmError
  | assertViolation : LsmError
deriving DecidableEq, Repr

/-- Translation of struct Header (segment/block): checksum of the
uncompressed payload, compressed length, uncompressed length, and the
offset of the previous block. -/
structure Header where
  checksum : Nat
  data_length : Nat
  uncompressed_length : Nat
  previous_block_offset : Nat
deriving DecidableEq, Repr

/-- Value of a little-endian byte sequence. -/
def leValue (bs : List Nat) : Nat := bs.foldr (fun b acc => b + 256 * acc) 0

/-- Little-endian encoding of v into n bytes. -/
def leBytes (n v : Nat) : List Nat := (List.range n).map (fun i => v / 256 ^ i % 256)

/-- Modelled from the spec: the header codec (segment/block/header.rs) is
not among the given sources. Per spec section 4.1 the header stores, in
order, the 64-bit checksum, the compressed length (u32), the uncompressed
length (u32) and the previous-block offset (u64), little-endian, hence 24
bytes in total. -/
def Header.serialized_len : Nat := 24

/-- Modelled from the spec: decoding a header from the 24-byte prefix of a
buffer; an underlong buffer is an io failure. -/
def Header.decode_from (bytes : List Nat) : Except LsmError Header :=
  if bytes.length < 24 then Except.error .io
  else Except.ok
    ⟨leValue (bytes.take 8),
     leValue ((bytes.drop 8).take 4),
     leValue ((bytes.drop 12).take 4),
     leValue ((bytes.drop 16).take 8)⟩

/-- Modelled from the spec: encoding a header, inverse layout of
Header.decode_from. -/
def Header.encode (h : Header) : List Nat :=
  leBytes 8 h.checksum ++ leBytes 4 h.data_length ++
  leBytes 4 h.uncompressed_length ++ leBytes 8 h.previous_block_offset

/-- Translation of struct Block (segment/block/mod.rs): header plus
uncompressed payload bytes. -/
structure Block where
  header : Header
  data : List Nat
deriving DecidableEq, Repr

/-- Translation of Block::to_writer (segment/block/mod.rs), parameterized
by the xxh3-64 hash and the compressors, which are external functions: the
checksum field is the xxh3-64 of the uncompressed payload, the data is
compressed according to the compression type, and the output stream is the
encoded header followed by the compressed bytes. Returns the header and
the written bytes. -/
def Block.to_writer (xxh3 : List Nat → Nat) (lz4Comp minizComp : List Nat → List Nat)
    (data : List Nat) (compression : CompressionType) : Header × List Nat :=
  let compressed : List Nat :=
    match compression with
    | .none => data
    | .lz4 => lz4Comp data
    | .miniz _ => minizComp data
  let header : Header := ⟨xxh3 data, compressed.length, data.length, 0⟩
  (header, header.encode ++ compressed)

/-- Translation of Block::from_file (segment/block/mod.rs), parameterized
by the decompressors, which are external functions: lz4Dec raw n
decompresses raw into a buffer of exactly n bytes and fails otherwise
(lz4_flex decompress_into); minizDec is miniz decompress_to_vec. The file
is read positionally: exactly size bytes at offset (the source asserts
that exactly size bytes were read), the header is decoded from the prefix
and the remainder is decompressed. Note that the function returns the
block without ever comparing the header checksum against a hash of the
payload. -/
def Block.from_file (lz4Dec : List Nat → Nat → Option (List Nat))
    (minizDec : List Nat → Option (List Nat))
    (file : List Nat) (offset size : Nat)
    (compression : CompressionType) : Except LsmError Block :=
  let buf := (file.drop offset).take size
  if buf.length ≠ size then Except.error .assertViolation
  else
    match Header.decode_from buf with
    | Except.error e => Except.error e
    | Except.ok header =>
      match compression with
      | .none => Except.ok ⟨header, buf.drop Header.serialized_len⟩
      | .lz4 =>
        let raw := buf.drop Header.serialized_len
        match lz4Dec raw header.uncompressed_length with
        | Option.none => Except.error (.decompress .lz4)
        | some data => Except.ok ⟨header, data⟩
      | .miniz level =>
        let raw := buf.drop Header.serialized_len
        match minizDec raw with
        | Option.none => Except.error (.decompress (.miniz level))
        | some data => Except.ok ⟨header, data⟩

end BlockCodec

/-- Translation of InternalValue as far as Segment::get needs it. -/
structure InternalValue where
  user_key : Key
  seqno : SeqNo
  value : List Nat
deriving DecidableEq, Repr

/-- Translation of the Segment state used by Segment::get
(segment/mod.rs): the metadata seqno interval (minimum first, as in
metadata.seqnos.0), the optionally pinned filter viewed through its
contains_hash method, and the point_read method, which is kept abstract
because its implementation goes through the block index, the block cache
and file reads. -/
structure Segment where
  seqnos : SeqNo × SeqNo
  pinned_filter : Option ((Nat × Nat) → Bool)
  point_read_fn : Key → Option SeqNo → Except BlockCodec.LsmError (Option InternalValue)

/-- The tail of Segment::get after the snapshot-seqno gate: consult the
pinned filter if present, then fall through to point_read. -/
def Segment.getAfterGate (seg : Segment) (key : Key) (seqno : Option SeqNo)
    (keyHash : Nat × Nat) : Except BlockCodec.LsmError (Option InternalValue) :=
  match seg.pinned_filter with
  | some filt =>
    if filt keyHash = false then Except.ok Option.none
    else seg.point_read_fn key seqno
  | Option.none => seg.point_read_fn key seqno

/-- Translation of Segment::get (segment/mod.rs): with a snapshot seqno,
first the gate returning Ok(None) when metadata.seqnos.0 is at least the
snapshot seqno, then the filter, then point_read. -/
def Segment.get (seg : Segment) (key : Key) (seqno : Option SeqNo)
    (keyHash : Nat × Nat) : Except BlockCodec.LsmError (Option InternalValue) :=
  match seqno with
  | some s =>
    if seg.seqnos.fst ≥ s then Except.ok Option.none
    else seg.getAfterGate key (some s) keyHash
  | Option.none => seg.getAfterGate key Option.none keyHash

/-- Translation of struct NewKeyedBlockHandle: end key of the referenced
block, its file offset and its size in bytes. -/
structure NewKeyedBlockHandle where
  end_key : Key
  offset : Nat
  size : Nat
deriving DecidableEq, Repr

/-- Modelled from the spec where the block encoder is missing from the
sources: IndexBlock::encode_items hard-codes restart interval 1, so every
handle is stored as a full restart head and the binary index holds one
pointer per handle, in storage order (spec section 4.2). A decoded index
block is therefore modelled as the stored list of keyed block handles;
binary-index pointer i stands for the byte position of handle i,
IndexBlock::get_key_at at that position yields its end key and
IndexBlock::parse_restart_head the whole handle. -/
structure IndexBlock where
  entries : List NewKeyedBlockHandle
deriving DecidableEq, Repr

/-- Number of binary-index pointers: one per restart head, hence one per
handle under restart interval 1. -/
def IndexBlock.binary_index_len (ib : IndexBlock) : Nat := ib.entries.length

/-- End key of the restart head behind binary-index pointer i
(IndexBlock::get_key_at). -/
def IndexBlock.get_key_at (ib : IndexBlock) (i : Nat) : Key :=
  (ib.entries.getD i ⟨[], 0, 0⟩).end_key

/-- The handle parsed from the restart head behind binary-index pointer i
(IndexBlock::parse_restart_head). -/
def IndexBlock.handle_at (ib : IndexBlock) (i : Nat) : NewKeyedBlockHandle :=
  ib.entries.getD i ⟨[], 0, 0⟩

/-- The loop of IndexBlock::search_lowest: binary search maintaining
left and right, descending left of mid when the key at mid is not below
the needle. -/
def IndexBlock.searchLowestLoop (ib : IndexBlock) (needle : Key)
    (left right : Nat) : Nat :=
  if h : left < right then
    if ib.get_key_at ((left + right) / 2) < needle then
      ib.searchLowestLoop needle ((left + right) / 2 + 1) right
    else
      ib.searchLowestLoop needle left ((left + right) / 2)
  else left
termination_by right - left
decreasing_by all_goals omega

/-- Translation of IndexBlock::search_lowest: None on an empty binary
index; otherwise run the loop over the whole index and fall back to the
last pointer when the loop ran off the right end. -/
def IndexBlock.search_lowest (ib : IndexBlock) (needle : Key) : Option Nat :=
  if ib.binary_index_len = 0 then Option.none
  else
    let left := ib.searchLowestLoop needle 0 ib.binary_index_len
    some (if left < ib.binary_index_len then left else ib.binary_index_len - 1)

/-- Translation of IndexBlock::get_lowest_possible_block: search, parse
the found restart head, and reject it when the needle is above its end
key. -/
def IndexBlock.get_lowest_possible_block (ib : IndexBlock) (needle : Key) :
    Option NewKeyedBlockHandle :=
  match ib.search_lowest needle with
  | Option.none => Option.none
  | some i =>
    let item := ib.handle_at i
    if needle > item.end_key then Option.none else some item

/-- The loop of IndexBlock::search_highest: like the lowest search but
advancing left past mid when the key at mid is at most the needle. -/
def IndexBlock.searchHighestLoop (ib : IndexBlock) (needle : Key)
    (left right : Nat) : Nat :=
  if h : left < right then
    if ib.get_key_at ((left + right) / 2) ≤ needle then
      ib.searchHighestLoop needle ((left + right) / 2 + 1) right
    else
      ib.searchHighestLoop needle left ((left + right) / 2)
  else left
termination_by right - left
decreasing_by all_goals omega

/-- Translation of IndexBlock::search_highest. -/
def IndexBlock.search_highest (ib : IndexBlock) (needle : Key) : Option Nat :=
  if ib.binary_index_len = 0 then Option.none
  else
    let left := ib.searchHighestLoop needle 0 ib.binary_index_len
    if left = 0 then some 0
    else if left = ib.binary_index_len then some (ib.binary_index_len - 1)
    else some left

/-- Translation of IndexBlock::get_highest_possible_block. -/
def IndexBlock.get_highest_possible_block (ib : IndexBlock) (needle : Key) :
    Option NewKeyedBlockHandle :=
  match ib.search_highest needle with
  | Option.none => Option.none
  | some i =>
    let item := ib.handle_at i
    if needle > item.end_key then Option.none else some item

/-- Definition following the words of claim C8, for comparison with the
translated get_highest_possible_block: the largest handle whose end key
is at least the needle and whose predecessor end key is below the
needle. -/
def claimHighestBlock (ib : IndexBlock) (needle : Key) :
    Option NewKeyedBlockHandle :=
  ((List.range ib.entries.length).reverse.find? (fun i =>
      decide (needle ≤ (ib.handle_at i).end_key) &&
      (decide (i = 0) || decide (ib.get_key_at (i - 1) < needle)))).map
    (fun i => ib.handle_at i)

namespace Compaction

/-- The segment metadata consulted by the compaction strategies. -/
structure SegmentMeta where
  id : Nat
  key_range : Key × Key
  file_size : Nat
  seqnos : SeqNo × SeqNo
deriving DecidableEq, Repr

/-- A level is a list of segments in storage order. -/
abbrev Level := List SegmentMeta

/-- Modelled from the spec (section 4.9): a level manifest is a list of
levels together with the hidden set of segment ids claimed by in-flight
compactions. -/
structure LevelManifest where
  levels : List Level
  hidden : Finset Nat
deriving DecidableEq

/-- Modelled from the spec (section 4.9): resolved_view returns the
levels filtered by the hidden set. -/
def LevelManifest.resolved_view (m : LevelManifest) : List Level :=
  m.levels.map (fun lvl => lvl.filter (fun s => decide (s.id ∉ m.hidden)))

/-- Modelled from the spec (section 4.9): busy_levels contains the level
indices currently claimed by a compaction, that is the levels holding a
hidden segment. -/
def LevelManifest.busy (m : LevelManifest) (i : Nat) : Bool :=
  (m.levels.getD i []).any (fun s => decide (s.id ∈ m.hidden))

/-- Modelled from the spec (section 4.9): hide_segments marks ids as
temporarily invisible. -/
def LevelManifest.hide_segments (m : LevelManifest) (ids : List Nat) : LevelManifest :=
  { m with hidden := m.hidden ∪ ids.toFinset }

/-- Total byte size of a level. -/
def levelSize (lvl : Level) : Nat := (lvl.map (fun s => s.file_size)).sum

/-- Modelled from the spec: two key ranges overlap when each one starts
no later than the other ends. -/
def rangesOverlap (a b : Key × Key) : Bool :=
  decide (a.fst ≤ b.snd) && decide (b.fst ≤ a.snd)

/-- Modelled from the spec: get_overlapping_segments returns the ids of
the segments of a level whose key range overlaps the given range. -/
def getOverlappingSegments (lvl : Level) (r : Key × Key) : List Nat :=
  (lvl.filter (fun s => rangesOverlap s.key_range r)).map (fun s => s.id)

/-- Translation of aggregate_key_range (compaction/levelled.rs): starting
from the first segment key range, lower the minimum and raise the
maximum over the remaining segments. The source panics on an empty input;
the empty range stands in for that unreachable case. -/
def aggregate_key_range (segments : List SegmentMeta) : Key × Key :=
  match segments with
  | [] => ([], [])
  | s :: rest =>
    rest.foldl (fun acc t =>
      (if t.key_range.fst < acc.fst then t.key_range.fst else acc.fst,
       if t.key_range.snd > acc.snd then t.key_range.snd else acc.snd)) s.key_range

/-- Stable insertion into a sorted list: the new element goes after all
elements it does not strictly precede, as in a stable sort. -/
def insertByLt {α : Type} (lt : α → α → Bool) (a : α) : List α → List α
  | [] => [a]
  | b :: l => if lt a b then a :: b :: l else b :: insertByLt lt a l

/-- Stable insertion sort, modelling the stable sort_by of the source:
elements are inserted left to right, so elements comparing equal keep
their original relative order. -/
def sortByLt {α : Type} (lt : α → α → Bool) (l : List α) : List α :=
  l.foldl (fun acc a => insertByLt lt a acc) []

/-- Segments sorted by the lower bound of their key range
(Level::sort_by_key_range, and the sort_by call in the L0 branch of the
levelled strategy). -/
def sortByKeyRange (lvl : Level) : Level :=
  sortByLt (fun a b => decide (a.key_range.fst < b.key_range.fst)) lvl

/-- Whether consecutive segments, in the given order, have strictly
increasing disjoint ranges. -/
def chainDisjoint : List SegmentMeta → Bool
  | [] => true
  | [_] => true
  | a :: b :: l => decide (a.key_range.snd < b.key_range.fst) && chainDisjoint (b :: l)

/-- Modelled from the spec (section 3): a level forms a single sorted run
when its segments, sorted by key range, are pairwise disjoint. -/
def Level.is_disjoint (lvl : Level) : Bool := chainDisjoint (sortByKeyRange lvl)

/-- Translation of struct Input (compaction): chosen segment ids, the
destination level, and the target size of output segments. -/
structure CompactionInput where
  segment_ids : List Nat
  dest_level : Nat
  target_size : Nat
deriving DecidableEq, Repr

/-- Translation of enum Choice (compaction). -/
inductive Choice where
  | doNothing : Choice
  | merge (input : CompactionInput) : Choice
  | move (input : CompactionInput) : Choice
  | dropSegments (ids : List Nat) : Choice
deriving DecidableEq, Repr

/-- Translation of the levelled Strategy struct (compaction/levelled.rs). -/
structure LevelledStrategy where
  l0_threshold : Nat
  target_size : Nat
deriving DecidableEq, Repr

/-- The configuration field the levelled strategy reads. -/
structure Config where
  level_ratio : Nat
deriving DecidableEq, Repr

/-- Translation of desired_level_size_in_bytes (compaction/levelled.rs):
ratio to the power of the level index, times the target size. -/
def desired_level_size_in_bytes (level_idx ratio target_size : Nat) : Nat :=
  ratio ^ level_idx * target_size

/-- The segment-collecting loop shared by the levelled and tiered
strategies: walk the candidate list, stop once the remaining overshoot
reaches zero, subtracting each taken file size with saturation. -/
def takeUntilCovered (overshoot : Nat) : List SegmentMeta → List SegmentMeta
  | [] => []
  | s :: rest =>
    if overshoot = 0 then []
    else s :: takeUntilCovered (overshoot - s.file_size) rest

/-- The deeper-levels loop of the levelled strategy choose, over the list
of candidate source-level indices: skip empty and busy levels; on a level
over its desired size, sort it by key range, take up to level_ratio
segments covering the overshoot, pull in the overlapping segments of the
next level, and answer Move when there is no overlap and the level is one
sorted run, else Merge. A missing next level breaks out of the loop. -/
def levelledDeeperLoop (strat : LevelledStrategy) (cfg : Config)
    (m : LevelManifest) (rv : List Level) : List Nat → Option Choice
  | [] => Option.none
  | i :: rest =>
    let level := rv.getD i []
    if level.isEmpty then levelledDeeperLoop strat cfg m rv rest
    else if m.busy i || m.busy (i + 1) then levelledDeeperLoop strat cfg m rv rest
    else
      let overshoot :=
        levelSize level - desired_level_size_in_bytes i cfg.level_ratio strat.target_size
      if 0 < overshoot then
        match rv.get? (i + 1) with
        | Option.none => Option.none
        | some nextLevel =>
          let sortedLevel := sortByKeyRange level
          let toCompact := takeUntilCovered overshoot (sortedLevel.take cfg.level_ratio)
          let kr := aggregate_key_range toCompact
          let overlappingIds := getOverlappingSegments nextLevel kr
          let ids := toCompact.map (fun s => s.id) ++ overlappingIds
          let choice : CompactionInput := ⟨ids, i + 1, strat.target_size⟩
          if overlappingIds.isEmpty && Level.is_disjoint sortedLevel then some (.move choice)
          else some (.merge choice)
      else levelledDeeperLoop strat cfg m rv rest

/-- Translation of the levelled Strategy choose (compaction/levelled.rs):
run the deeper-levels loop over levels 1 up to the next-to-last level, in
reverse; if it chose nothing, evaluate L0: when the visible L0 holds at
least l0_threshold segments and neither L0 nor L1 is busy, merge all of
L0, sorted by key range, together with the overlapping L1 segments, into
level 1. -/
def LevelledStrategy.choose (strat : LevelledStrategy) (m : LevelManifest)
    (cfg : Config) : Choice :=
  let rv := m.resolved_view
  match levelledDeeperLoop strat cfg m rv (List.range' 1 (rv.length - 2)).reverse with
  | some c => c
  | Option.none =>
    match rv.head? with
    | Option.none => .doNothing
    | some firstLevel =>
      if strat.l0_threshold ≤ firstLevel.length ∧ m.busy 0 = false ∧ m.busy 1 = false then
        let sortedL0 := sortByKeyRange firstLevel
        match rv.get? 1 with
        | Option.none => .doNothing
        | some nextLevel =>
          let kr := aggregate_key_range sortedL0
          let overlappingIds := getOverlappingSegments nextLevel kr
          let ids := sortedL0.map (fun s => s.id) ++ overlappingIds
          .merge ⟨ids, 1, strat.target_size⟩
      else .doNothing

/-- Translation of the tiered Strategy struct (compaction/tiered.rs). -/
structure TieredStrategy where
  base_size : Nat
  level_ratio : Nat
deriving DecidableEq, Repr

/-- Translation of Input as the tiered strategy builds it: the segment
ids are collected into a hash set. -/
structure TieredInput where
  segment_ids : Finset Nat
  dest_level : Nat
  target_size : Nat
deriving DecidableEq

/-- The choices the tiered strategy and its maintenance fallback can
emit. -/
inductive TieredChoice where
  | doNothing : TieredChoice
  | merge (input : TieredInput) : TieredChoice
deriving DecidableEq

/-- Translation of constant L0_SEGMENT_CAP (compaction/maintenance.rs). -/
def L0_SEGMENT_CAP : Nat := 20

/-- The list of all n-wide windows of consecutive elements, as the Rust
slice windows iterator yields them. -/
def windowsList {α : Type} (n : Nat) (l : List α) : List (List α) :=
  if n = 0 then []
  else if l.length < n then []
  else (List.range (l.length - n + 1)).map (fun i => (l.drop i).take n)

/-- The first element attaining the minimal key, as Rust min_by_key: when
several are equally minimal the first is kept. -/
def minByKeyFirst {α : Type} (key : α → Nat) : List α → Option α
  | [] => Option.none
  | a :: l => some (l.foldl (fun best x => if key x < key best then x else best) a)

/-- Translation of choose_least_effort_compaction
(compaction/maintenance.rs): among all n-wide windows of consecutive
segments, the one of least total file size; its segment ids. The source
asserts n is at most the number of segments and panics otherwise; the
empty list stands in for that unreachable case. -/
def choose_least_effort_compaction (segments : List SegmentMeta) (n : Nat) : List Nat :=
  match minByKeyFirst (fun w => (w.map (fun s => s.file_size)).sum) (windowsList n segments) with
  | some w => w.map (fun s => s.id)
  | Option.none => []

/-- Translation of the maintenance Strategy choose
(compaction/maintenance.rs): when the visible L0 exceeds L0_SEGMENT_CAP
segments, merge the least-effort window of (len - cap + 1) consecutive
segments, sorted oldest to newest, back into L0 with unbounded target
size; the ids are collected into the set-valued input used by the tiered
strategy. -/
def maintenanceChoose (m : LevelManifest) : TieredChoice :=
  let rv := m.resolved_view
  let firstLevel := rv.headD []
  if L0_SEGMENT_CAP < firstLevel.length then
    let n := firstLevel.length - L0_SEGMENT_CAP + 1
    let sorted := sortByLt (fun a b => decide (a.seqnos.fst < b.seqnos.fst)) firstLevel
    .merge ⟨(choose_least_effort_compaction sorted n).toFinset, 0, U64 - 1⟩
  else .doNothing

/-- The level loop of the tiered strategy choose, over the list of
candidate source-level indices: skip empty levels; when the non-hidden
size of a level reaches the desired size, take up to level_ratio segments
from the newest end covering desired bytes; when the destination index
equals 6 literally, skip the level while level 6 is busy and otherwise
also pull in every segment of the last level of the raw manifest; emit
Merge with unbounded target size. -/
def tieredLoop (strat : TieredStrategy) (m : LevelManifest) (rv : List Level) :
    List Nat → Option TieredChoice
  | [] => Option.none
  | i :: rest =>
    let level := rv.getD i []
    if level.isEmpty then tieredLoop strat m rv rest
    else
      let level_size :=
        ((level.filter (fun s => decide (s.id ∉ m.hidden))).map (fun s => s.file_size)).sum
      let desired := strat.level_ratio ^ (i + 1) * strat.base_size
      if desired ≤ level_size then
        let toCompact := takeUntilCovered desired (level.reverse.take strat.level_ratio)
        let ids := (toCompact.map (fun s => s.id)).toFinset
        if i + 1 = 6 then
          if m.busy (i + 1) then tieredLoop strat m rv rest
          else
            let lastIds := ((m.levels.getLastD []).map (fun s => s.id)).toFinset
            some (.merge ⟨ids ∪ lastIds, i + 1, U64 - 1⟩)
        else some (.merge ⟨ids, i + 1, U64 - 1⟩)
      else tieredLoop strat m rv rest

/-- Translation of the tiered Strategy choose (compaction/tiered.rs): run
the level loop over all levels but the last, in reverse; fall back to the
maintenance strategy when no tiered action fires. -/
def TieredStrategy.choose (strat : TieredStrategy) (m : LevelManifest) : TieredChoice :=
  let rv := m.resolved_view
  match tieredLoop strat m rv (List.range (rv.length - 1)).reverse with
  | some c => c
  | Option.none => maintenanceChoose m

/-- Bytes in n mebibytes. -/
def mib (n : Nat) : Nat := n * 1024 * 1024

/-- A 128 MiB segment with key range from byte a to byte z, for the L0
scenario of claim C6. -/
def c6seg (i : Nat) : SegmentMeta := ⟨i, ([97], [122]), mib 128, (0, 0)⟩

/-- The manifest of the C6 scenario: four such segments in L0 of a
four-level manifest, nothing hidden. -/
def c6manifest : LevelManifest :=
  ⟨[[c6seg 1, c6seg 2, c6seg 3, c6seg 4], [], [], []], ∅⟩

/-- The levelled strategy of the C6 scenario. -/
def c6strat : LevelledStrategy := ⟨4, mib 128⟩

/-- A segment for the tiered scenario of claim C7. -/
def c7seg (i sz : Nat) : SegmentMeta := ⟨i, ([97], [122]), mib sz, (0, 0)⟩

/-- The manifest of the C7 scenario: a four-level manifest whose level 2
holds two 32 MiB segments and whose last level holds segment 9. -/
def c7manifest : LevelManifest :=
  ⟨[[], [], [c7seg 2 32, c7seg 3 32], [c7seg 9 1]], ∅⟩

/-- The tiered strategy of the C7 scenario: 8 MiB base size, ratio 2. -/
def c7strat : TieredStrategy := ⟨mib 8, 2⟩

end Compaction

/-- A concrete segment for the C1 scenario: minimum seqno 3, maximum 9, a
filter accepting everything, and a point read that would find a value. -/
def c1segment : Segment :=
  ⟨(3, 9), some (fun _ => true), fun _ _ => Except.ok (some ⟨[1], 5, [2]⟩)⟩

/-- A concrete 27-byte block image for the C2 scenario: a header with the
given checksum field over the 3-byte payload 1, 2, 3, stored without
compression. -/
def c2file (checksum : Nat) : List Nat :=
  BlockCodec.Header.encode ⟨checksum, 3, 3, 0⟩ ++ [1, 2, 3]

/-- The index block of the C3 scenario, the handles of the literal test of
the spec: end keys b, bcdef, def as byte lists. -/
def exIB : IndexBlock :=
  ⟨[⟨[98], 0, 6000⟩, ⟨[98, 99, 100, 101, 102], 6000, 7000⟩, ⟨[100, 101, 102], 13000, 5000⟩]⟩

/-- An index block with distinct sorted end keys b, c, d, on which the
highest-block search of claim C8 is refuted. -/
def exIB8 : IndexBlock :=
  ⟨[⟨[98], 0, 6000⟩, ⟨[99], 6000, 7000⟩, ⟨[100], 13000, 5000⟩]⟩

/-- The index block of the reverse-search test of the source: end keys
b, c, c, d with a duplicated end key. -/
def exIBspan : IndexBlock :=
  ⟨[⟨[98], 0, 6000⟩, ⟨[99], 0, 6000⟩, ⟨[99], 6000, 7000⟩, ⟨[100], 13000, 5000⟩]⟩

instance (feat : Compression.Features) (c : Compression.CompressionType) :
    Decidable (Compression.availableIn feat c) := by
  cases c <;> simp only [Compression.availableIn] <;> infer_instance

/-!
## Theorems

First the Bloom-filter lemmas relating the probe loops to the explicit
probe-position list, then the claim theorems.
-/

namespace Bloom

theorem containsLoop_eq_all (f : BlockedBloomFilter) (b : Nat) (h1 h2 : Nat) (is : List Nat) :
    containsLoop f b h1 h2 is = (probeAux b h1 h2 is).all (fun p => f.inner.get p) := by
  induction is generalizing h1 h2 with
  | nil => rfl
  | cons i is ih =>
    simp only [containsLoop, probeAux, List.all_cons, BlockedBloomFilter.has_bit]
    by_cases hbit : f.inner.get (b * CACHE_LINE_BYTES + (h1 + h2) % U64 % CACHE_LINE_BYTES) = true
    · simp [hbit, ih]
    · simp only [Bool.not_eq_true] at hbit
      simp [hbit]

theorem setLoop_bits (b : Nat) (B : BitArray) (h1 h2 : Nat) (is : List Nat) :
    (setLoop b B h1 h2 is).bits = B.bits ∪ (probeAux b h1 h2 is).toFinset := by
  induction is generalizing B h1 h2 with
  | nil => simp [setLoop, probeAux]
  | cons i is ih =>
    simp only [setLoop, probeAux, ih, BitArray.enable, List.toFinset_cons]
    rw [Finset.union_insert, Finset.insert_union]

theorem set_with_hash_inner (f : BlockedBloomFilter) (h : Nat × Nat) :
    (f.set_with_hash h).inner.bits
      = f.inner.bits ∪ (probePositions f.num_blocks f.k h.1 h.2).toFinset := by
  simp [BlockedBloomFilter.set_with_hash, probePositions, setLoop_bits]

theorem set_with_hash_k (f : BlockedBloomFilter) (h : Nat × Nat) :
    (f.set_with_hash h).k = f.k := rfl

theorem set_with_hash_num_blocks (f : BlockedBloomFilter) (h : Nat × Nat) :
    (f.set_with_hash h).num_blocks = f.num_blocks := rfl

theorem contains_hash_true_iff (f : BlockedBloomFilter) (h : Nat × Nat) :
    f.contains_hash h = true
      ↔ ∀ p ∈ probePositions f.num_blocks f.k h.1 h.2, p ∈ f.inner.bits := by
  simp [BlockedBloomFilter.contains_hash, probePositions, containsLoop_eq_all,
    List.all_eq_true, BitArray.get]

theorem probeAux_length (b : Nat) (h1 h2 : Nat) (is : List Nat) :
    (probeAux b h1 h2 is).length = is.length := by
  induction is generalizing h1 h2 with
  | nil => rfl
  | cons i is ih => simp [probeAux, ih]

theorem probeAux_mem_block (b : Nat) (h1 h2 : Nat) (is : List Nat) :
    ∀ p ∈ probeAux b h1 h2 is,
      b * CACHE_LINE_BYTES ≤ p ∧ p < b * CACHE_LINE_BYTES + CACHE_LINE_BYTES := by
  induction is generalizing h1 h2 with
  | nil => intro p hp; cases hp
  | cons i is ih =>
    intro p hp
    rcases List.mem_cons.mp hp with rfl | hp2
    · have : (h1 + h2) % U64 % CACHE_LINE_BYTES < CACHE_LINE_BYTES :=
        Nat.mod_lt _ (by simp [CACHE_LINE_BYTES])
      omega
    · exact ih _ _ p hp2

theorem foldl_set_k (hs : List (Nat × Nat)) (F : BlockedBloomFilter) :
    (hs.foldl BlockedBloomFilter.set_with_hash F).k = F.k := by
  induction hs generalizing F with
  | nil => rfl
  | cons h hs ih => simp [ih, set_with_hash_k]

theorem foldl_set_num_blocks (hs : List (Nat × Nat)) (F : BlockedBloomFilter) :
    (hs.foldl BlockedBloomFilter.set_with_hash F).num_blocks = F.num_blocks := by
  induction hs generalizing F with
  | nil => rfl
  | cons h hs ih => simp [ih, set_with_hash_num_blocks]

theorem foldl_set_bits_mono (hs : List (Nat × Nat)) (F : BlockedBloomFilter) :
    F.inner.bits ⊆ (hs.foldl BlockedBloomFilter.set_with_hash F).inner.bits := by
  induction hs generalizing F with
  | nil => exact Finset.Subset.refl _
  | cons h hs ih =>
    refine Finset.Subset.trans ?_ (ih (F.set_with_hash h))
    rw [set_with_hash_inner]
    exact Finset.subset_union_left

theorem contains_foldl_of_mem (hs : List (Nat × Nat)) (F : BlockedBloomFilter)
    (h : Nat × Nat) (hmem : h ∈ hs) :
    (hs.foldl BlockedBloomFilter.set_with_hash F).contains_hash h = true := by
  induction hs generalizing F with
  | nil => cases hmem
  | cons h0 hs ih =>
    rcases List.mem_cons.mp hmem with rfl | hmem2
    · rw [List.foldl_cons, contains_hash_true_iff]
      intro p hp
      rw [foldl_set_k, foldl_set_num_blocks, set_with_hash_k, set_with_hash_num_blocks] at hp
      apply foldl_set_bits_mono
      rw [set_with_hash_inner]
      exact Finset.mem_union_right _ (List.mem_toFinset.mpr hp)
    · exact ih (F.set_with_hash h0) hmem2

/-- C4: for every finite set of keys inserted into a BlockedBloomFilter by
calling set_with_hash on the key hash, and for every inserted key, a later
contains_hash of that key hash returns true: membership has zero false
negatives. The key-to-hash assignment is arbitrary. -/
theorem blocked_bloom_no_false_negatives {α : Type} (get_hash : α → Nat × Nat)
    (keys : List α) (F0 : BlockedBloomFilter) (x : α) (hx : x ∈ keys) :
    ((keys.foldl (fun f kk => f.set_with_hash (get_hash kk)) F0).contains_hash
      (get_hash x)) = true := by
  have hfold : keys.foldl (fun f kk => f.set_with_hash (get_hash kk)) F0
      = (keys.map get_hash).foldl BlockedBloomFilter.set_with_hash F0 := by
    rw [List.foldl_map]
  rw [hfold]
  exact contains_foldl_of_mem _ _ _ (List.mem_map_of_mem get_hash hx)

/-- C4 witness: inserting the byte-list keys 5 and 7-8 under a concrete
hash assignment, the filter contains the key 5. -/
theorem blocked_bloom_no_false_negatives_witness :
    ([5] : Key) ∈ ([[5], [7, 8]] : List Key)
    ∧ ((([[5], [7, 8]] : List Key).foldl
          (fun (f : BlockedBloomFilter) (kk : Key) => f.set_with_hash (kk.headD 0, kk.length))
          ⟨⟨∅⟩, 3, 2⟩).contains_hash
        (([5] : Key).headD 0, ([5] : Key).length)) = true :=
  ⟨by decide,
   blocked_bloom_no_false_negatives (fun (kk : Key) => (kk.headD 0, kk.length)) _ _ _
     (by decide)⟩

/-- C5 counterexample: the claimed probing rule (k probes, bit h1 mod 512
inside a 512-bit block) disagrees with set_with_hash on concrete filters:
with one hash function the code sets no bit at all while the claim sets
one, and with two hash functions and hash (0, 100) the code sets bit 36
while the claim sets bits 100 and 201. -/
theorem blocked_bloom_claimed_probe_counterexample :
    BlockedBloomFilter.set_with_hash ⟨⟨∅⟩, 1, 1⟩ (0, 0) ≠ claimSetWithHash ⟨⟨∅⟩, 1, 1⟩ (0, 0)
    ∧ BlockedBloomFilter.set_with_hash ⟨⟨∅⟩, 2, 1⟩ (0, 100)
        ≠ claimSetWithHash ⟨⟨∅⟩, 2, 1⟩ (0, 100) := by
  constructor <;> decide

/-- C5 (amended): a composite hash is mapped to the single block chosen as
h1 mod num_blocks, and both set_with_hash and contains_hash touch exactly
the positions of probePositions: k - 1 probes (loop counters 1 to k - 1),
each at bit position h1 mod 64 inside the chosen block after the wrapping
update of h1 and h2, the block spanning 64 consecutive bit positions of
the array. -/
theorem blocked_bloom_probe_characterization (f : BlockedBloomFilter) (h1 h2 : Nat) :
    (f.set_with_hash (h1, h2)).inner.bits
        = f.inner.bits ∪ (probePositions f.num_blocks f.k h1 h2).toFinset
    ∧ (f.contains_hash (h1, h2) = true
        ↔ ∀ p ∈ probePositions f.num_blocks f.k h1 h2, p ∈ f.inner.bits)
    ∧ (probePositions f.num_blocks f.k h1 h2).length = f.k - 1
    ∧ ∀ p ∈ probePositions f.num_blocks f.k h1 h2,
        h1 % f.num_blocks * CACHE_LINE_BYTES ≤ p
        ∧ p < h1 % f.num_blocks * CACHE_LINE_BYTES + CACHE_LINE_BYTES := by
  refine ⟨set_with_hash_inner f (h1, h2), contains_hash_true_iff f (h1, h2), ?_, ?_⟩
  · rw [probePositions, probeAux_length, List.length_range']
  · exact probeAux_mem_block _ _ _ _

/-- C10: a blocked Bloom filter with a single hash function runs zero
probe iterations, so contains_hash returns true for every composite hash,
even on a filter with no keys inserted. -/
theorem blocked_bloom_k_one_contains_always (f : BlockedBloomFilter) (hk : f.k = 1)
    (h1 h2 : Nat) : f.contains_hash (h1, h2) = true := by
  simp [BlockedBloomFilter.contains_hash, hk, containsLoop]

/-- C10 witness: a freshly built filter with k equal to one accepts an
arbitrary hash. -/
theorem blocked_bloom_k_one_contains_always_witness :
    (BlockedBloomFilter.mk ⟨∅⟩ 1 7).k = 1
    ∧ (BlockedBloomFilter.mk ⟨∅⟩ 1 7).contains_hash (123, 456) = true :=
  ⟨rfl, blocked_bloom_k_one_contains_always _ rfl 123 456⟩

end Bloom

/-- C1: whenever the minimum seqno of a segment is at least the requested
snapshot seqno, Segment::get with that snapshot returns Ok(None) at every
key and key hash, regardless of the pinned filter and of what point_read
would find; get takes the segment immutably, so the segment state is
unchanged. -/
theorem segment_get_seqno_gate (seg : Segment) (key : Key) (s : SeqNo)
    (key_hash : Nat × Nat) (hs : seg.seqnos.fst ≥ s) :
    seg.get key (some s) key_hash = Except.ok Option.none := by
  simp [Segment.get, hs]

/-- C1 witness: on a concrete segment with minimum seqno 3, a get at
snapshot seqno 2 returns Ok(None) even though its point read would find a
value. -/
theorem segment_get_seqno_gate_witness :
    c1segment.seqnos.fst ≥ 2
    ∧ c1segment.get [1] (some 2) (0, 0) = Except.ok Option.none :=
  ⟨by decide, segment_get_seqno_gate c1segment [1] 2 (0, 0) (by decide)⟩

namespace Compression

/-- C9: serialization of CompressionType is stable and self-checking:
serialize writes exactly two bytes, the first being tag 0 for None, 1 for
Lz4 and 2 for Miniz; deserializing the serialized bytes of a variant
available in the build yields the variant back; and deserializing a buffer
whose first byte is a tag not supported by the build fails with
InvalidTag. -/
theorem compression_serialization_stable :
    (∀ (c : CompressionType) (bytes : List Nat), c.serialize = some bytes →
        bytes.length = 2 ∧ bytes.head? = some c.tagByte)
    ∧ (∀ (feat : Features) (c : CompressionType) (bytes : List Nat),
        availableIn feat c → c.serialize = some bytes →
        CompressionType.deserialize feat bytes = Except.ok c)
    ∧ (∀ (feat : Features) (tag : Nat) (rest : List Nat), ¬ tagSupported feat tag →
        CompressionType.deserialize feat (tag :: rest) = Except.error (.invalidTag tag)) := by
  refine ⟨?_, ?_, ?_⟩
  · intro c bytes hc
    cases c with
    | none =>
      simp only [CompressionType.serialize, Option.some.injEq] at hc
      subst hc; exact ⟨rfl, rfl⟩
    | lz4 =>
      simp only [CompressionType.serialize, Option.some.injEq] at hc
      subst hc; exact ⟨rfl, rfl⟩
    | miniz level =>
      simp only [CompressionType.serialize] at hc
      by_cases hl : level ≤ 10
      · rw [if_pos hl, Option.some.injEq] at hc
        subst hc; exact ⟨rfl, rfl⟩
      · rw [if_neg hl] at hc; cases hc
  · intro feat c bytes hav hc
    cases c with
    | none =>
      simp only [CompressionType.serialize, Option.some.injEq] at hc
      subst hc
      simp [CompressionType.deserialize]
    | lz4 =>
      simp only [CompressionType.serialize, Option.some.injEq] at hc
      subst hc
      simp only [availableIn] at hav
      simp [CompressionType.deserialize, hav]
    | miniz level =>
      simp only [CompressionType.serialize] at hc
      by_cases hl : level ≤ 10
      · rw [if_pos hl] at hc
        rcases Option.some.injEq _ _ ▸ hc with rfl
        simp only [availableIn] at hav
        simp [CompressionType.deserialize, hav, hl]
      · rw [if_neg hl] at hc; cases hc
  · intro feat tag rest hns
    rw [tagSupported] at hns
    push_neg at hns
    obtain ⟨h0, h1, h2⟩ := hns
    rw [CompressionType.deserialize.eq_def]
    dsimp only
    rw [if_neg h0, if_neg ?_, if_neg ?_]
    · intro ⟨ht, hf⟩; exact h2 ht hf
    · intro ⟨ht, hf⟩; exact h1 ht hf

/-- C9 witness: round trip of Miniz level 6 in a full-featured build, and
InvalidTag on tag 1 in a build without lz4. -/
theorem compression_serialization_stable_witness :
    (CompressionType.miniz 6).serialize = some [2, 6]
    ∧ CompressionType.deserialize ⟨true, true⟩ [2, 6] = Except.ok (CompressionType.miniz 6)
    ∧ ¬ tagSupported ⟨false, true⟩ 1
    ∧ CompressionType.deserialize ⟨false, true⟩ [1, 0] = Except.error (.invalidTag 1) := by
  refine ⟨by decide, ?_, by decide, ?_⟩
  · exact compression_serialization_stable.2.1 ⟨true, true⟩ (CompressionType.miniz 6) [2, 6]
      (by decide) (by decide)
  · exact compression_serialization_stable.2.2 ⟨false, true⟩ 1 [0] (by decide)

end Compression

namespace BlockCodec

/-- C2 (evaluation at the failing input): Block::from_file performs no
checksum verification. Two 27-byte block images that differ only in the
stored checksum field (0 and 1) over the same payload 1, 2, 3 are both
read back Ok; since the xxh3-64 of that payload is one fixed value, at
least one of the two stored checksums mismatches it, yet neither read
fails with a Checksum error. The decompression half of the claim does
hold: a decompressor rejecting the stored bytes yields a Decompress
error, shown here with an lz4 decoder that rejects everything. -/
theorem block_from_file_no_checksum_verification :
    (Block.from_file (fun _ _ => Option.none) (fun _ => Option.none) (c2file 0) 0 27
        Compression.CompressionType.none = Except.ok ⟨⟨0, 3, 3, 0⟩, [1, 2, 3]⟩)
    ∧ (Block.from_file (fun _ _ => Option.none) (fun _ => Option.none) (c2file 1) 0 27
        Compression.CompressionType.none = Except.ok ⟨⟨1, 3, 3, 0⟩, [1, 2, 3]⟩)
    ∧ (0 : Nat) ≠ 1
    ∧ (Block.from_file (fun _ _ => Option.none) (fun _ => Option.none) (c2file 0) 0 27
        Compression.CompressionType.lz4
          = Except.error (.decompress Compression.CompressionType.lz4)) :=
  ⟨rfl, rfl, by decide, rfl⟩

end BlockCodec

theorem find?_eq_some_getD {α : Type} (p : α → Bool) (l : List α) (d : α)
    (h : l.findIdx p < l.length) :
    l.find? p = some (l.getD (l.findIdx p) d) := by
  induction l with
  | nil => simp at h
  | cons a l ih =>
    by_cases hp : p a
    · simp [List.find?_cons, hp, List.findIdx_cons]
    · rw [List.findIdx_cons] at h ⊢
      simp only [hp, cond_false] at h ⊢
      simp only [List.find?_cons, hp, List.getD_cons_succ]
      exact ih (by simpa using h)

theorem end_key_le_getLast (l : List NewKeyedBlockHandle)
    (hs : l.Pairwise (fun a b => a.end_key ≤ b.end_key)) (hne : l ≠ [])
    (e : NewKeyedBlockHandle) (he : e ∈ l) :
    e.end_key ≤ (l.getLast hne).end_key := by
  obtain ⟨i, hi, rfl⟩ := List.mem_iff_getElem.mp he
  rw [List.getLast_eq_getElem]
  rcases Nat.lt_or_ge i (l.length - 1) with hlt | hge
  · exact (List.pairwise_iff_getElem.mp hs) i (l.length - 1) hi (by omega) hlt
  · have : i = l.length - 1 := by omega
    subst this
    exact le_rfl

theorem searchLowestLoop_eq (ib : IndexBlock) (needle : Key) (lb : Nat)
    (hA : ∀ j, j < lb → j < ib.entries.length → ib.get_key_at j < needle)
    (hB : ∀ j, lb ≤ j → j < ib.entries.length → needle ≤ ib.get_key_at j) :
    ∀ (fuel left right : Nat), right - left ≤ fuel → left ≤ lb → lb ≤ right →
      right ≤ ib.entries.length → ib.searchLowestLoop needle left right = lb := by
  intro fuel
  induction fuel with
  | zero =>
    intro left right hf h1 h2 h3
    rw [IndexBlock.searchLowestLoop]
    rw [dif_neg (by omega : ¬ left < right)]
    omega
  | succ fuel ih =>
    intro left right hf h1 h2 h3
    rw [IndexBlock.searchLowestLoop]
    by_cases hlr : left < right
    · rw [dif_pos hlr]
      by_cases hkey : ib.get_key_at ((left + right) / 2) < needle
      · rw [if_pos hkey]
        have hmidlb : (left + right) / 2 < lb := by
          by_contra hc
          push_neg at hc
          exact absurd (hB _ hc (by omega)) (not_le.mpr hkey)
        exact ih _ _ (by omega) (by omega) h2 h3
      · rw [if_neg hkey]
        have hmidlb : lb ≤ (left + right) / 2 := by
          by_contra hc
          push_neg at hc
          exact hkey (hA _ hc (by omega))
        exact ih _ _ (by omega) h1 hmidlb (by omega)
    · rw [dif_neg hlr]
      omega

theorem get_lowest_characterization (ib : IndexBlock) (needle : Key)
    (hs : ib.entries.Pairwise (fun a b => a.end_key ≤ b.end_key))
    (hne : ib.entries ≠ []) :
    ib.get_lowest_possible_block needle
      = ib.entries.find? (fun e => decide (needle ≤ e.end_key)) := by
  have hn : 0 < ib.entries.length := List.length_pos.mpr hne
  have hlb_le : ib.entries.findIdx (fun e => decide (needle ≤ e.end_key))
      ≤ ib.entries.length := List.findIdx_le_length _
  set lb := ib.entries.findIdx (fun e => decide (needle ≤ e.end_key)) with hlbdef
  have hA : ∀ j, j < lb → j < ib.entries.length → ib.get_key_at j < needle := by
    intro j hj hjn
    have hfalse := @List.not_of_lt_findIdx _ (fun e => decide (needle ≤ e.end_key))
      ib.entries j (hlbdef ▸ hj)
    rw [IndexBlock.get_key_at, List.getD_eq_getElem _ _ hjn]
    simpa using hfalse
  have hB : ∀ j, lb ≤ j → j < ib.entries.length → needle ≤ ib.get_key_at j := by
    intro j hj hjn
    have hlb_lt : lb < ib.entries.length := lt_of_le_of_lt hj hjn
    have hpl : needle ≤ ib.entries[lb].end_key := by
      have := @List.findIdx_getElem _ (fun e => decide (needle ≤ e.end_key))
        ib.entries (hlbdef ▸ hlb_lt)
      simpa using this
    rw [IndexBlock.get_key_at, List.getD_eq_getElem _ _ hjn]
    rcases eq_or_lt_of_le hj with heq | hlt
    · subst heq; exact hpl
    · exact le_trans hpl ((List.pairwise_iff_getElem.mp hs) lb j hlb_lt hjn hlt)
  have hloop := searchLowestLoop_eq ib needle lb hA hB ib.entries.length 0
    ib.entries.length (by omega) (by omega) hlb_le le_rfl
  rw [IndexBlock.get_lowest_possible_block, IndexBlock.search_lowest]
  simp only [IndexBlock.binary_index_len, hloop]
  rw [if_neg (by omega : ¬ ib.entries.length = 0)]
  by_cases hcase : lb < ib.entries.length
  · rw [if_pos hcase]
    have hnogt : ¬ needle > (ib.handle_at lb).end_key := by
      have := hB lb le_rfl hcase
      rw [IndexBlock.get_key_at] at this
      exact not_lt.mpr this
    simp only [IndexBlock.handle_at] at hnogt ⊢
    rw [if_neg hnogt, find?_eq_some_getD _ _ ⟨[], 0, 0⟩ hcase]
  · rw [if_neg hcase]
    have hlast : ib.get_key_at (ib.entries.length - 1) < needle :=
      hA _ (by omega) (by omega)
    rw [IndexBlock.get_key_at] at hlast
    simp only [IndexBlock.handle_at]
    rw [if_pos hlast]
    symm
    rw [List.find?_eq_none]
    intro x hx
    have hall := List.findIdx_eq_length.mp (by omega : lb = ib.entries.length) x hx
    simpa using hall

/-- C3: on an index block encoded from a non-empty handle list sorted by
end key (encode_items hard-codes restart interval one),
get_lowest_possible_block returns the first handle whose end key is at
least the needle, and None exactly when the needle is above the last
handle end key. -/
theorem index_block_get_lowest_possible_block_spec (ib : IndexBlock) (needle : Key)
    (hs : ib.entries.Pairwise (fun a b => a.end_key ≤ b.end_key))
    (hne : ib.entries ≠ []) :
    ib.get_lowest_possible_block needle
      = ib.entries.find? (fun e => decide (needle ≤ e.end_key))
    ∧ (ib.get_lowest_possible_block needle = Option.none
        ↔ (ib.entries.getLast hne).end_key < needle) := by
  refine ⟨get_lowest_characterization ib needle hs hne, ?_⟩
  rw [get_lowest_characterization ib needle hs hne]
  constructor
  · intro hnone
    have := List.find?_eq_none.mp hnone _ (List.getLast_mem hne)
    simpa using this
  · intro hlast
    rw [List.find?_eq_none]
    intro x hx
    have := end_key_le_getLast ib.entries hs hne x hx
    simp only [decide_eq_true_eq]
    intro hle
    exact absurd (le_trans hle this) (not_le.mpr hlast)

/-- C3 witness: the index block over the handles with end keys b, bcdef
and def of the literal spec test, probed at the needles a, b, ba and d,
yields handles 0, 0, 1 and 2. -/
theorem index_block_get_lowest_possible_block_spec_witness :
    exIB.entries.Pairwise (fun a b => a.end_key ≤ b.end_key)
    ∧ exIB.get_lowest_possible_block [97] = some ⟨[98], 0, 6000⟩
    ∧ exIB.get_lowest_possible_block [98] = some ⟨[98], 0, 6000⟩
    ∧ exIB.get_lowest_possible_block [98, 97] = some ⟨[98, 99, 100, 101, 102], 6000, 7000⟩
    ∧ exIB.get_lowest_possible_block [100] = some ⟨[100, 101, 102], 13000, 5000⟩ := by
  have hs : exIB.entries.Pairwise (fun a b => a.end_key ≤ b.end_key) := by decide
  have hne : exIB.entries ≠ [] := by decide
  refine ⟨hs, ?_, ?_, ?_, ?_⟩
  · rw [(index_block_get_lowest_possible_block_spec exIB [97] hs hne).1]; decide
  · rw [(index_block_get_lowest_possible_block_spec exIB [98] hs hne).1]; decide
  · rw [(index_block_get_lowest_possible_block_spec exIB [98, 97] hs hne).1]; decide
  · rw [(index_block_get_lowest_possible_block_spec exIB [100] hs hne).1]; decide

theorem searchHighestLoop_eq (ib : IndexBlock) (needle : Key) (ub : Nat)
    (hA : ∀ j, j < ub → j < ib.entries.length → ib.get_key_at j ≤ needle)
    (hB : ∀ j, ub ≤ j → j < ib.entries.length → needle < ib.get_key_at j) :
    ∀ (fuel left right : Nat), right - left ≤ fuel → left ≤ ub → ub ≤ right →
      right ≤ ib.entries.length → ib.searchHighestLoop needle left right = ub := by
  intro fuel
  induction fuel with
  | zero =>
    intro left right hf h1 h2 h3
    rw [IndexBlock.searchHighestLoop]
    rw [dif_neg (by omega : ¬ left < right)]
    omega
  | succ fuel ih =>
    intro left right hf h1 h2 h3
    rw [IndexBlock.searchHighestLoop]
    by_cases hlr : left < right
    · rw [dif_pos hlr]
      by_cases hkey : ib.get_key_at ((left + right) / 2) ≤ needle
      · rw [if_pos hkey]
        have hmidub : (left + right) / 2 < ub := by
          by_contra hc
          push_neg at hc
          exact absurd (hB _ hc (by omega)) (not_lt.mpr hkey)
        exact ih _ _ (by omega) (by omega) h2 h3
      · rw [if_neg hkey]
        have hmidub : ub ≤ (left + right) / 2 := by
          by_contra hc
          push_neg at hc
          exact hkey (hA _ hc (by omega))
        exact ih _ _ (by omega) h1 hmidub (by omega)
    · rw [dif_neg hlr]
      omega

theorem get_highest_characterization (ib : IndexBlock) (needle : Key)
    (hs : ib.entries.Pairwise (fun a b => a.end_key ≤ b.end_key))
    (hne : ib.entries ≠ []) :
    ib.get_highest_possible_block needle
      = match ib.entries.find? (fun e => decide (needle < e.end_key)) with
        | some e => some e
        | Option.none =>
          if needle ≤ (ib.entries.getLast hne).end_key
          then some (ib.entries.getLast hne) else Option.none := by
  have hn : 0 < ib.entries.length := List.length_pos.mpr hne
  have hub_le : ib.entries.findIdx (fun e => decide (needle < e.end_key))
      ≤ ib.entries.length := List.findIdx_le_length _
  set ub := ib.entries.findIdx (fun e => decide (needle < e.end_key)) with hubdef
  have hA : ∀ j, j < ub → j < ib.entries.length → ib.get_key_at j ≤ needle := by
    intro j hj hjn
    have hfalse := @List.not_of_lt_findIdx _ (fun e => decide (needle < e.end_key))
      ib.entries j (hubdef ▸ hj)
    rw [IndexBlock.get_key_at, List.getD_eq_getElem _ _ hjn]
    simpa using hfalse
  have hB : ∀ j, ub ≤ j → j < ib.entries.length → needle < ib.get_key_at j := by
    intro j hj hjn
    have hub_lt : ub < ib.entries.length := lt_of_le_of_lt hj hjn
    have hpl : needle < ib.entries[ub].end_key := by
      have := @List.findIdx_getElem _ (fun e => decide (needle < e.end_key))
        ib.entries (hubdef ▸ hub_lt)
      simpa using this
    rw [IndexBlock.get_key_at, List.getD_eq_getElem _ _ hjn]
    rcases eq_or_lt_of_le hj with heq | hlt
    · subst heq; exact hpl
    · exact lt_of_lt_of_le hpl ((List.pairwise_iff_getElem.mp hs) ub j hub_lt hjn hlt)
  have hloop := searchHighestLoop_eq ib needle ub hA hB ib.entries.length 0
    ib.entries.length (by omega) (by omega) hub_le le_rfl
  rw [IndexBlock.get_highest_possible_block, IndexBlock.search_highest]
  simp only [IndexBlock.binary_index_len, hloop]
  rw [if_neg (by omega : ¬ ib.entries.length = 0)]
  by_cases hub0 : ub = 0
  · rw [if_pos hub0]
    have hkey0 : needle < ib.get_key_at 0 := hB 0 (by omega) hn
    rw [IndexBlock.get_key_at] at hkey0
    simp only [IndexBlock.handle_at]
    rw [if_neg (not_lt.mpr (le_of_lt hkey0))]
    have hfind := find?_eq_some_getD (fun e => decide (needle < e.end_key))
      ib.entries ⟨[], 0, 0⟩ (by omega)
    rw [← hubdef, hub0] at hfind
    rw [hfind]
  · by_cases hubn : ub = ib.entries.length
    · rw [if_neg hub0, if_pos hubn]
      have hfind : ib.entries.find? (fun e => decide (needle < e.end_key))
          = Option.none := by
        rw [List.find?_eq_none]
        intro x hx
        have := List.findIdx_eq_length.mp (hubdef ▸ hubn) x hx
        simpa using this
      rw [hfind]
      rw [List.getLast_eq_getElem]
      simp only [IndexBlock.handle_at]
      rw [List.getD_eq_getElem _ _ (by omega : ib.entries.length - 1 < ib.entries.length)]
      by_cases hlastle : needle ≤ ib.entries[ib.entries.length - 1].end_key
      · rw [if_neg (not_lt.mpr hlastle), if_pos hlastle]
      · rw [if_pos (not_le.mp hlastle), if_neg hlastle]
    · rw [if_neg hub0, if_neg hubn]
      have hub_lt : ub < ib.entries.length := by omega
      have hkeyub : needle < ib.get_key_at ub := hB ub le_rfl hub_lt
      rw [IndexBlock.get_key_at] at hkeyub
      simp only [IndexBlock.handle_at]
      rw [if_neg (not_lt.mpr (le_of_lt hkeyub))]
      have hfind := find?_eq_some_getD (fun e => decide (needle < e.end_key))
        ib.entries ⟨[], 0, 0⟩ (hubdef ▸ hub_lt)
      rw [← hubdef] at hfind
      rw [hfind]

/-- C8 (amended): on an index block encoded from a non-empty handle list
sorted by end key, get_highest_possible_block returns the first handle
whose end key is strictly above the needle; when no end key is above the
needle it returns the last handle if the needle is at most its end key
(that is, the needle equals the largest end key) and None otherwise; in
particular None is returned exactly when the needle is above the last end
key. -/
theorem index_block_get_highest_possible_block_spec (ib : IndexBlock) (needle : Key)
    (hs : ib.entries.Pairwise (fun a b => a.end_key ≤ b.end_key))
    (hne : ib.entries ≠ []) :
    (ib.get_highest_possible_block needle
      = match ib.entries.find? (fun e => decide (needle < e.end_key)) with
        | some e => some e
        | Option.none =>
          if needle ≤ (ib.entries.getLast hne).end_key
          then some (ib.entries.getLast hne) else Option.none)
    ∧ (ib.get_highest_possible_block needle = Option.none
        ↔ (ib.entries.getLast hne).end_key < needle) := by
  refine ⟨get_highest_characterization ib needle hs hne, ?_⟩
  rw [get_highest_characterization ib needle hs hne]
  cases hfind : ib.entries.find? (fun e => decide (needle < e.end_key)) with
  | some e =>
    simp only []
    constructor
    · intro hnone; cases hnone
    · intro hlast
      have hmem := List.mem_of_find?_eq_some hfind
      have hpe : needle < e.end_key := by simpa using List.find?_some hfind
      have := end_key_le_getLast ib.entries hs hne e hmem
      exact absurd (lt_of_lt_of_le hpe this) (not_lt.mpr (le_of_lt hlast))
  | none =>
    simp only []
    by_cases hle : needle ≤ (ib.entries.getLast hne).end_key
    · rw [if_pos hle]
      simp [not_lt.mpr hle]
    · rw [if_neg hle]
      simp [not_le.mp hle]

/-- C8 witness: on the index block with end keys b, c, c, d of the
reverse-search test of the source, the needle c yields the d handle and a
needle above every end key yields None. -/
theorem index_block_get_highest_possible_block_spec_witness :
    exIBspan.entries.Pairwise (fun a b => a.end_key ≤ b.end_key)
    ∧ exIBspan.get_highest_possible_block [99] = some ⟨[100], 13000, 5000⟩
    ∧ exIBspan.get_highest_possible_block [122] = Option.none := by
  have hs : exIBspan.entries.Pairwise (fun a b => a.end_key ≤ b.end_key) := by decide
  have hne : exIBspan.entries ≠ [] := by decide
  refine ⟨hs, ?_, ?_⟩
  · rw [(index_block_get_highest_possible_block_spec exIBspan [99] hs hne).1]; rfl
  · rw [(index_block_get_highest_possible_block_spec exIBspan [122] hs hne).1]; rfl

/-- C8 counterexample: on the sorted index block with end keys b, c, d and
needle c, the code returns the d handle, whereas the claim prescribes the
c handle: the largest handle whose end key is at least c and whose
predecessor end key is below c. -/
theorem index_block_get_highest_claim_counterexample :
    exIB8.get_highest_possible_block [99] = some ⟨[100], 13000, 5000⟩
    ∧ claimHighestBlock exIB8 [99] = some ⟨[99], 6000, 7000⟩
    ∧ (⟨[100], 13000, 5000⟩ : NewKeyedBlockHandle) ≠ ⟨[99], 6000, 7000⟩ := by
  refine ⟨?_, by decide, by decide⟩
  rw [get_highest_characterization exIB8 [99] (by decide) (by decide)]
  decide

namespace Compaction

/-- C6: for the levelled strategy with l0_threshold 4 and target size
128 MiB on a four-level manifest whose visible L0 holds the four 128 MiB
segments 1 to 4 with key range a to z and no deeper level over its
desired size, choose emits a Merge of segments 1, 2, 3, 4 into level 1
with target size 128 MiB (all of L0 plus the overlapping L1 segments, of
which there are none); and after hiding segment 4, so that fewer than
l0_threshold L0 segments remain visible, choose emits DoNothing. -/
theorem levelled_l0_trigger :
    c6strat.choose c6manifest ⟨8⟩ = Choice.merge ⟨[1, 2, 3, 4], 1, mib 128⟩
    ∧ c6strat.choose (c6manifest.hide_segments [4]) ⟨8⟩ = Choice.doNothing :=
  ⟨rfl, rfl⟩

/-- C7 (evaluation at the failing input): the size-tiered strategy only
absorbs the last level when the destination index is literally 6, the
last level of the default seven-level configuration. On a four-level
manifest whose level 2 holds the two 32 MiB segments 2 and 3 (base size
8 MiB, ratio 2, so level 2 is exactly at its desired 64 MiB) and whose
last physical level holds segment 9, the emitted Merge targets the last
level (level 3) but contains only segments 2 and 3: segment 9, although
present in Lmax, is not included, contradicting the claim and the
comment in the source that the last level is overwritten. -/
theorem tiered_lmax_absorption_misses_nondefault_lmax :
    c7strat.choose c7manifest
      = TieredChoice.merge ⟨([3, 2] : List Nat).toFinset, 3, U64 - 1⟩
    ∧ ([3, 2] : List Nat).toFinset = {2, 3}
    ∧ (9 : Nat) ∉ ({2, 3} : Finset Nat)
    ∧ 9 ∈ (c7manifest.levels.getLastD []).map (fun s => s.id) :=
  ⟨rfl, by decide, by decide, by decide⟩

end Compaction

end LsmTree
